import Mathlib

/-!
Verification of the trajectory-integration core of the quad-diff repository
(`quaddiff/core/trajectory.py`) against its natural-language specification.

The Python code is shallowly embedded: complex floats become `ℂ`, real floats
become `ℝ`, Python lists become `List`, and the mutable closure state of the
monodromy tracker (`m_point`, `m_phase`) becomes an explicit `MonoState`
record threaded through the vector-field function.  The external ODE driver
`scipy.integrate.solve_ivp` is not part of the repository; ray outputs are
therefore universally quantified lists, constrained only by the documented
contract that a ray's first sample is the starting point.
-/

namespace QuadDiff

/-- Python's `complex(*y)` for a pair `y = (re, im)`. -/
def complexOfPair (y : ℝ × ℝ) : ℂ := ⟨y.1, y.2⟩

/-- The map `unit(w) = w / |w|`, the unit-modulus normalization used in the spec's
product formula for the field value. -/
noncomputable def unitz (w : ℂ) : ℂ := w / (Complex.abs w : ℂ)

/-- Python float `%` with a positive modulus: `x % y = x - y * floor (x / y)`
(result carries the sign of the divisor, as in Python). -/
noncomputable def fmod (x y : ℝ) : ℝ := x - y * (Int.floor (x / y) : ℝ)

/-- Principal complex square root, `cmath.sqrt`: the power `z ^ (1/2)` with
the principal branch of the logarithm (argument in `(-π, π]`). -/
noncomputable def csqrt (z : ℂ) : ℂ := z ^ ((1 : ℂ) / 2)

/-- The mutable one-element lists `m_point`, `m_phase` captured by the
`vector_field` closure in `calculate_ray_3`: the last field value seen and
the accumulated (continuously unwrapped) phase. -/
structure MonoState where
  point : ℂ
  phase : ℝ

/-- The field value computed at the top of `vector_field` in
`calculate_ray_3` (trajectory.py lines 390-392): three `reduce`s over the
zeros, the simple poles and the double poles, starting from `phase`.
`calculate_ray` (lines 214-223) computes the same folds with `for` loops. -/
noncomputable def fieldValue (phase : ℂ) (zeros smplpoles dblpoles : List ℂ) (comp : ℂ) : ℂ :=
  dblpoles.foldl
    (fun x z => x * ((comp - z) / (Complex.abs (comp - z) : ℂ)) ^ (-2 : ℤ))
    (smplpoles.foldl
      (fun x z => x * ((comp - z) / (Complex.abs (comp - z) : ℂ)) ^ (-1 : ℤ))
      (zeros.foldl (fun x z => x * ((comp - z) / (Complex.abs (comp - z) : ℂ))) phase))

/-- The body of `vector_field` in `calculate_ray_3` (trajectory.py lines
386-409), with the closure-captured monodromy lists made an explicit state:
computes the field value, updates the monodromy, selects the square-root
branch, and returns the new state together with the returned pair
`(value.real, value.imag)`. -/
noncomputable def vector_field (sign velocity_scale lim : ℝ) (phase : ℂ)
    (zeros smplpoles dblpoles : List ℂ) (st : MonoState) (t : ℝ) (y : ℝ × ℝ) :
    MonoState × (ℝ × ℝ) :=
  let comp := complexOfPair y
  let value := fieldValue phase zeros smplpoles dblpoles comp
  let arg_change := Complex.arg (value / st.point)
  let m_phase := st.phase + arg_change
  let factor : ℝ :=
    if fmod (m_phase - Real.pi) (4 * Real.pi) < 2 * Real.pi then -1 else 1
  let value2 := (sign : ℂ) * (velocity_scale : ℂ) * (factor : ℂ)
      * csqrt ((starRingEnd ℂ) value)
  let value3 := if lim / 3 < Complex.abs comp then value2 * (Complex.abs comp : ℂ) else value2
  (⟨value, m_phase⟩, (value3.re, value3.im))

/-- Spec 4.2 step 1-2: the monodromy update adds the principal argument of
`v / lastValue` to the accumulated phase and records `v` as the last value. -/
noncomputable def monodromyUpdate (st : MonoState) (v : ℂ) : MonoState :=
  ⟨v, st.phase + Complex.arg (v / st.point)⟩

/-- Spec 4.2 step 3: branch factor is `-1` if
`(accumulatedPhase - π) mod 4π < 2π`, else `+1`. -/
noncomputable def branchFactor (accumulatedPhase : ℝ) : ℝ :=
  if fmod (accumulatedPhase - Real.pi) (4 * Real.pi) < 2 * Real.pi then -1 else 1

/-- Spec 4.2: `velocity = sign · velocityScale · branchFactor ·
sqrt(conjugate v)`, additionally scaled by `|z|` whenever `|z|` exceeds one
third of `domainRadius`. -/
noncomputable def specVelocity (sign velocityScale factor : ℝ) (v comp : ℂ) (lim : ℝ) : ℂ :=
  (if lim / 3 < Complex.abs comp then (Complex.abs comp : ℂ) else 1)
    * ((sign : ℂ) * (velocityScale : ℂ) * (factor : ℂ) * csqrt ((starRingEnd ℂ) v))

/-- The `close_2start` event function of `calculate_ray_3` (trajectory.py
lines 431-433): Python evaluates `(t < 100) + (abs(comp - starting_point) >
close)` as a sum of two booleans coerced to integers. -/
noncomputable def close_2start_fn (starting_point : ℂ) (close : ℝ) (t : ℝ) (y : ℝ × ℝ) : ℝ :=
  (if t < 100 then 1 else 0)
    + (if close < Complex.abs (complexOfPair y - starting_point) then 1 else 0)

/-- Embedding of `numpy.arange(0, stop, step)` for a positive `step`: the multiples
`k * step` for `0 ≤ k < ⌈stop / step⌉`. -/
noncomputable def aran (stop step : ℝ) : List ℝ :=
  (List.range (Nat.ceil (stop / step))).map (fun k => (k : ℝ) * step)

/-- One iteration of the loop body of `Trajectory.refine` (trajectory.py
lines 38-47): if the pair is farther apart than `max_distance`, emit
`point + times * direction` with `times = arange(0, dist, max_distance)` and
`direction` the normalized segment direction; otherwise emit `[point]`. -/
noncomputable def refineSeg (max_distance : ℝ) (point next_point : ℂ) : List ℂ :=
  if max_distance < Complex.abs (point - next_point) then
    (aran (Complex.abs (point - next_point)) max_distance).map
      (fun s => point + (s : ℂ)
        * ((next_point - point) / (Complex.abs (next_point - point) : ℂ)))
  else [point]

/-- Embedding of `Trajectory.refine`: the loop over `zip(self[:-1], self[1:])`,
concatenating each pair's contribution. -/
noncomputable def refine (l : List ℂ) (max_distance : ℝ) : List ℂ :=
  ((l.dropLast.zip l.tail).map (fun pq => refineSeg max_distance pq.1 pq.2)).flatten

/-- Guard-instrumented variant of `refineSeg`: returns `none` exactly when
the taken branch would divide by a zero-length direction vector
(`direction /= abs(direction)` with `abs(direction) = 0`). -/
noncomputable def refineSegGuard (max_distance : ℝ) (point next_point : ℂ) :
    Option (List ℂ) :=
  if max_distance < Complex.abs (point - next_point) then
    if Complex.abs (next_point - point) = 0 then none
    else some ((aran (Complex.abs (point - next_point)) max_distance).map
      (fun s => point + (s : ℂ)
        * ((next_point - point) / (Complex.abs (next_point - point) : ℂ))))
  else some [point]

/-- Guard-instrumented `refine` over a list of adjacent pairs. -/
noncomputable def refineGuardAux (max_distance : ℝ) : List (ℂ × ℂ) → Option (List ℂ)
  | [] => some []
  | pq :: rest =>
    (refineSegGuard max_distance pq.1 pq.2).bind
      (fun s => (refineGuardAux max_distance rest).map (fun r => s ++ r))

/-- Guard-instrumented `Trajectory.refine`: `none` iff some segment of the
loop divides by a zero-length direction vector. -/
noncomputable def refineGuard (l : List ℂ) (max_distance : ℝ) : Option (List ℂ) :=
  refineGuardAux max_distance (l.dropLast.zip l.tail)

/-- The `Trajectory` value type: an ordered point sequence with an optional
basepoint. -/
structure TrajectoryT where
  trajectory : List ℂ
  basepoint : Option ℂ

/-- The merge in `TrajectorySolver.calculate` (trajectory.py lines 150-151):
`list(reversed(negative_trajectory)) + positive_trajectory[1:]`. -/
def calculateMerge (neg pos : List ℂ) : List ℂ := neg.reverse ++ pos.drop 1

/-- Embedding of `TrajectorySolver.calculate` (trajectory.py lines 137-152), with the ray
integrator (`calculate_ray_3`, whose point list comes from the external
`solve_ivp` driver) abstracted as a function of the start point, the
resolved phase and the sign.  A `none` phase defaults to the field's phase. -/
def calculate (ray : ℂ → ℂ → ℤ → List ℂ) (defaultPhase : ℂ) (point : ℂ)
    (phase : Option ℂ) : TrajectoryT :=
  { trajectory := calculateMerge (ray point (phase.getD defaultPhase) (-1))
      (ray point (phase.getD defaultPhase) 1)
    basepoint := some point }

/-- Embedding of `TrajectorySolver._calculate`: unpack one `(point, phase)` job. -/
def calcJob (ray : ℂ → ℂ → ℤ → List ℂ) (defaultPhase : ℂ) (arg : ℂ × ℂ) : TrajectoryT :=
  calculate ray defaultPhase arg.1 (some arg.2)

/-- Embedding of `TrajectorySolver.parallel_calculate` (trajectory.py lines 154-175):
`pool.imap` yields one result per job in input order, and the result dict is
built by zipping `args` with those results.  Modelled as the association
list pairing each job key with its computed trajectory. -/
def parallel_calculate (ray : ℂ → ℂ → ℤ → List ℂ) (defaultPhase : ℂ)
    (args : List (ℂ × ℂ)) : List ((ℂ × ℂ) × TrajectoryT) :=
  args.map (fun a => (a, calcJob ray defaultPhase a))

/-- The planar cross product `Re a · Im b - Im a · Re b` (twice the signed
area spanned by two vectors); used to characterize `segCross`. -/
def cross2 (a b : ℂ) : ℝ := a.re * b.im - a.im * b.re

/-- The per-segment-pair test of `Trajectory.intersects` (trajectory.py
lines 80-97): with `T1 = (w2 - z1)/(z2 - z1)` and `T2 = (w1 - z1)/(z2 - z1)`,
condition 1 is `Im T1 · Im T2 ≤ 0` and condition 2 puts the crossing
parameter `(Im T2 · Re T1 - Im T1 · Re T2)/(Im T2 - Im T1)` in `[0, 1]`. -/
def segCross (z1 z2 w1 w2 : ℂ) : Prop :=
  ((w2 - z1) / (z2 - z1)).im * ((w1 - z1) / (z2 - z1)).im ≤ 0 ∧
  0 ≤ (((w1 - z1) / (z2 - z1)).im * ((w2 - z1) / (z2 - z1)).re
        - ((w2 - z1) / (z2 - z1)).im * ((w1 - z1) / (z2 - z1)).re)
      / (((w1 - z1) / (z2 - z1)).im - ((w2 - z1) / (z2 - z1)).im) ∧
  (((w1 - z1) / (z2 - z1)).im * ((w2 - z1) / (z2 - z1)).re
        - ((w2 - z1) / (z2 - z1)).im * ((w1 - z1) / (z2 - z1)).re)
      / (((w1 - z1) / (z2 - z1)).im - ((w2 - z1) / (z2 - z1)).im) ≤ 1

/-- Embedding of `Trajectory.intersects` (trajectory.py lines 69-99) with its meshgrid
over all segment pairs: some segment of `line` and some segment of `other`
pass the `segCross` test. -/
def intersectsTraj (line other : List ℂ) : Prop :=
  ∃ i j z1 z2 w1 w2, line.get? i = some z1 ∧ line.get? (i + 1) = some z2 ∧
    other.get? j = some w1 ∧ other.get? (j + 1) = some w2 ∧ segCross z1 z2 w1 w2

/-- Embedding of `Trajectory.intersects` including its `simplify` flag (trajectory.py
lines 69-76): when set, only the receiver is replaced by its simplified
copy; `other` is used as passed.  The out-of-repository
`simplify_trajectory` helper is abstracted as `simp0`. -/
def intersectsMethod (simp0 : List ℂ → List ℂ) (a b : List ℂ) (simplify : Bool) : Prop :=
  intersectsTraj (if simplify then simp0 a else a) b

end QuadDiff

namespace QuadDiff

/-- Folding multiplication by `f` over a list, starting from `a`, is `a`
times the product of the mapped list. -/
theorem foldl_mul_map (f : ℂ → ℂ) (a : ℂ) (l : List ℂ) :
    l.foldl (fun x z => x * f z) a = a * (l.map f).prod := by
  induction l generalizing a with
  | nil => simp
  | cons hd tl ih => simp [ih, mul_assoc]

/-- C2: at every integration step, the field value used by the ray
integrator equals `phase · Π_zeros unit(z - zero) · Π_simplePoles
unit(z - pole)⁻¹ · Π_doublePoles unit(z - pole)⁻²`, where
`unit(w) = w / |w|`, for every point not coinciding with a singularity. -/
theorem fieldValue_eq_prod (phase : ℂ) (zeros smplpoles dblpoles : List ℂ) (comp : ℂ)
    (hz : comp ∉ zeros) (hs : comp ∉ smplpoles) (hd : comp ∉ dblpoles) :
    fieldValue phase zeros smplpoles dblpoles comp =
      phase * (zeros.map (fun s => unitz (comp - s))).prod
        * (smplpoles.map (fun s => unitz (comp - s) ^ (-1 : ℤ))).prod
        * (dblpoles.map (fun s => unitz (comp - s) ^ (-2 : ℤ))).prod := by
  unfold fieldValue unitz
  rw [foldl_mul_map, foldl_mul_map, foldl_mul_map]

/-- Concrete instantiation of `fieldValue_eq_prod` (one zero at the origin,
no poles, evaluated at `1`). -/
theorem fieldValue_eq_prod_witness :
    (1 : ℂ) ∉ ([0] : List ℂ) ∧ (1 : ℂ) ∉ ([] : List ℂ) ∧ (1 : ℂ) ∉ ([] : List ℂ) ∧
      fieldValue 1 [0] [] [] 1 =
        1 * (([0] : List ℂ).map (fun s => unitz (1 - s))).prod
          * (([] : List ℂ).map (fun s => unitz (1 - s) ^ (-1 : ℤ))).prod
          * (([] : List ℂ).map (fun s => unitz (1 - s) ^ (-2 : ℤ))).prod :=
  ⟨by simp, by simp, by simp,
    fieldValue_eq_prod 1 [0] [] [] 1 (by simp) (by simp) (by simp)⟩

/-- C1: one step of the ray integrator's velocity computation: the monodromy
state is updated with the principal argument of `v / lastValue`; the branch
factor is `-1` iff `(accumulatedPhase - π) mod 4π < 2π` and `+1` otherwise;
and the returned velocity is `sign · velocityScale · branchFactor ·
sqrt(conjugate v)`, additionally multiplied by `|z|` whenever
`|z| > domainRadius / 3`. -/
theorem vector_field_spec (sign velocity_scale lim : ℝ) (phase : ℂ)
    (zeros smplpoles dblpoles : List ℂ) (st : MonoState) (t : ℝ) (y : ℝ × ℝ) :
    vector_field sign velocity_scale lim phase zeros smplpoles dblpoles st t y =
      (monodromyUpdate st (fieldValue phase zeros smplpoles dblpoles (complexOfPair y)),
        ((specVelocity sign velocity_scale
            (branchFactor (monodromyUpdate st
              (fieldValue phase zeros smplpoles dblpoles (complexOfPair y))).phase)
            (fieldValue phase zeros smplpoles dblpoles (complexOfPair y))
            (complexOfPair y) lim).re,
          (specVelocity sign velocity_scale
            (branchFactor (monodromyUpdate st
              (fieldValue phase zeros smplpoles dblpoles (complexOfPair y))).phase)
            (fieldValue phase zeros smplpoles dblpoles (complexOfPair y))
            (complexOfPair y) lim).im)) := by
  have key : ∀ (factor : ℝ) (v comp : ℂ),
      (if lim / 3 < Complex.abs comp
        then (sign : ℂ) * (velocity_scale : ℂ) * (factor : ℂ) * csqrt ((starRingEnd ℂ) v)
          * (Complex.abs comp : ℂ)
        else (sign : ℂ) * (velocity_scale : ℂ) * (factor : ℂ) * csqrt ((starRingEnd ℂ) v))
      = specVelocity sign velocity_scale factor v comp lim := by
    intro factor v comp
    unfold specVelocity
    split <;> ring
  simp only [vector_field, monodromyUpdate, branchFactor]
  rw [← key]

/-- C4: the `close_to_start` event function is zero exactly when `t ≥ 100`
and the current point is within `closeToStart` of the start point; in
particular it is nonzero (the event cannot fire) for all `t < 100`. -/
theorem close_2start_zero_iff (starting_point : ℂ) (close t : ℝ) (y : ℝ × ℝ) :
    close_2start_fn starting_point close t y = 0 ↔
      100 ≤ t ∧ Complex.abs (complexOfPair y - starting_point) ≤ close := by
  unfold close_2start_fn
  by_cases h1 : t < 100
  · by_cases h2 : close < Complex.abs (complexOfPair y - starting_point)
    · rw [if_pos h1, if_pos h2]
      constructor
      · intro h; norm_num at h
      · rintro ⟨h, -⟩; linarith
    · rw [if_pos h1, if_neg h2]
      constructor
      · intro h; norm_num at h
      · rintro ⟨h, -⟩; linarith
  · by_cases h2 : close < Complex.abs (complexOfPair y - starting_point)
    · rw [if_neg h1, if_pos h2]
      constructor
      · intro h; norm_num at h
      · rintro ⟨-, h⟩; linarith
    · rw [if_neg h1, if_neg h2]
      constructor
      · intro _; exact ⟨not_lt.mp h1, not_lt.mp h2⟩
      · intro _; norm_num

/-- For a positive `max_distance`, a single `refine` loop iteration never
divides by a zero-length direction: the guarded variant always succeeds. -/
theorem refineSegGuard_eq (max_distance : ℝ) (h : 0 < max_distance) (p q : ℂ) :
    refineSegGuard max_distance p q = some (refineSeg max_distance p q) := by
  unfold refineSegGuard refineSeg
  by_cases hlt : max_distance < Complex.abs (p - q)
  · rw [if_pos hlt, if_pos hlt, if_neg]
    intro h0
    rw [Complex.abs.map_sub q p] at h0
    linarith
  · rw [if_neg hlt, if_neg hlt]

/-- C6: for every trajectory and every `maxDistance > 0`, `refine` never
divides by a zero-length direction vector: the division by the segment's
length is executed only when that length exceeds `maxDistance`, so the
guard-instrumented `refine` succeeds and agrees with the plain one. -/
theorem refine_no_div_by_zero (l : List ℂ) (max_distance : ℝ) (h : 0 < max_distance) :
    refineGuard l max_distance = some (refine l max_distance) := by
  unfold refineGuard refine
  generalize l.dropLast.zip l.tail = pairs
  induction pairs with
  | nil => simp [refineGuardAux]
  | cons pq rest ih =>
    simp [refineGuardAux, refineSegGuard_eq max_distance h, ih]

/-- Concrete instantiation of `refine_no_div_by_zero` on a degenerate
trajectory made of two coincident points. -/
theorem refine_no_div_by_zero_witness :
    (0 : ℝ) < 1 ∧ refineGuard [0, 0] 1 = some (refine [0, 0] 1) :=
  ⟨by norm_num, refine_no_div_by_zero [0, 0] 1 (by norm_num)⟩

/-- Evaluation fact: `numpy.arange(0, 4, 1) = [0, 1, 2, 3]`. -/
theorem aran_four_one : aran 4 1 = [0, 1, 2, 3] := by
  unfold aran
  have h1 : (4 : ℝ) / 1 = 4 := by norm_num
  rw [h1]
  have h2 : Nat.ceil (4 : ℝ) = 4 := by simp
  rw [h2]
  have h3 : List.range 4 = [0, 1, 2, 3] := by rfl
  rw [h3]
  simp

/-- Evaluation fact: `Trajectory.refine([0, 4], max_distance=1)` computes `[0, 1, 2, 3]`:
the final endpoint `4` is never appended. -/
theorem refine_zero_four : refine [(0 : ℂ), 4] 1 = [0, 1, 2, 3] := by
  unfold refine
  have hzip : ([(0 : ℂ), 4].dropLast.zip [(0 : ℂ), 4].tail) = [((0 : ℂ), (4 : ℂ))] := rfl
  rw [hzip]
  have habs : Complex.abs ((0 : ℂ) - 4) = 4 := by
    rw [show (0 : ℂ) - 4 = -4 by ring, Complex.abs.map_neg]
    exact Complex.abs_ofNat 4
  have habs2 : Complex.abs ((4 : ℂ) - 0) = 4 := by
    rw [show (4 : ℂ) - 0 = 4 by ring]
    exact Complex.abs_ofNat 4
  simp only [List.map_cons, List.map_nil, List.flatten]
  unfold refineSeg
  rw [habs, habs2, if_pos (by norm_num : (1 : ℝ) < 4), aran_four_one]
  norm_num

/-- C5 counterexample: the final endpoint `4` is not present in
`refine([0, 4], maxDistance=1)` (the output has only four points), so the
output is not the claimed `[0, 1, 2, 3, 4]` with the endpoint present. -/
theorem refine_endpoint_missing :
    (4 : ℂ) ∉ refine [(0 : ℂ), 4] 1 ∧ (refine [(0 : ℂ), 4] 1).length = 4 := by
  rw [refine_zero_four]
  constructor
  · intro hmem
    simp only [List.mem_cons, List.not_mem_nil, or_false] at hmem
    rcases hmem with h | h | h | h <;> norm_num at h
  · rfl

/-- C5 amended: `refine([0, 4], maxDistance=1)` returns exactly
`[0, 1, 2, 3]`: consecutive output points are at most `maxDistance` apart,
and the last output point lies exactly `maxDistance` short of the
trajectory's final endpoint `4`, which itself is absent from the output. -/
theorem refine_zero_four_amended :
    refine [(0 : ℂ), 4] 1 = [0, 1, 2, 3] ∧
      List.Chain' (fun p q => Complex.abs (q - p) ≤ 1) (refine [(0 : ℂ), 4] 1) ∧
      Complex.abs ((4 : ℂ) - 3) ≤ 1 := by
  refine ⟨refine_zero_four, ?_, ?_⟩
  · rw [refine_zero_four]
    have h1 : Complex.abs ((1 : ℂ) - 0) = 1 := by norm_num
    have h2 : Complex.abs ((2 : ℂ) - 1) = 1 := by
      rw [show (2 : ℂ) - 1 = 1 by ring]; norm_num
    have h3 : Complex.abs ((3 : ℂ) - 2) = 1 := by
      rw [show (3 : ℂ) - 2 = 1 by ring]; norm_num
    simp [List.chain'_cons, h1, h2, h3]
  · rw [show (4 : ℂ) - 3 = 1 by ring]
    norm_num

/-- In `(a :: l).reverse ++ r`, the entry at index `l.length` (the last
entry contributed by the reversed list) is `a`. -/
theorem get_rev_append_last (l r : List ℂ) (a : ℂ) :
    ((a :: l).reverse ++ r).get? l.length = some a := by
  rw [List.reverse_cons, List.append_assoc,
    List.get?_append_right (by simp)]
  simp

/-- In `(a :: l).reverse ++ (b :: r)`, the entry at index `l.length + 1`
(the first entry after the reversed list) is `b`. -/
theorem get_rev_append_next (l r : List ℂ) (a b : ℂ) :
    ((a :: l).reverse ++ (b :: r)).get? (l.length + 1) = some b := by
  rw [List.reverse_cons, List.append_assoc,
    List.get?_append_right (by simp)]
  simp

/-- C3: `calculate` returns the reversed negative ray concatenated with the
positive ray minus its first sample; when the rays start at `point` (the
`solve_ivp` contract) and the positive ray's second sample `q` differs from
`point`, the two adjacent entries at the junction are `point` and `q`, so no
adjacent point is duplicated at the seam. -/
theorem calculate_seam (ray : ℂ → ℂ → ℤ → List ℂ) (defaultPhase point q : ℂ)
    (phase : Option ℂ)
    (hn : (ray point (phase.getD defaultPhase) (-1)).head? = some point)
    (hp : (ray point (phase.getD defaultPhase) 1).head? = some point)
    (hq : (ray point (phase.getD defaultPhase) 1).get? 1 = some q)
    (hne : q ≠ point) :
    (calculate ray defaultPhase point phase).trajectory
        = (ray point (phase.getD defaultPhase) (-1)).reverse
          ++ (ray point (phase.getD defaultPhase) 1).drop 1 ∧
      (calculate ray defaultPhase point phase).trajectory.get?
          ((ray point (phase.getD defaultPhase) (-1)).length - 1) = some point ∧
      (calculate ray defaultPhase point phase).trajectory.get?
          (ray point (phase.getD defaultPhase) (-1)).length = some q ∧
      (calculate ray defaultPhase point phase).trajectory.get?
          ((ray point (phase.getD defaultPhase) (-1)).length - 1)
        ≠ (calculate ray defaultPhase point phase).trajectory.get?
            (ray point (phase.getD defaultPhase) (-1)).length := by
  obtain ⟨tl, htl⟩ : ∃ tl, ray point (phase.getD defaultPhase) (-1) = point :: tl := by
    cases hcase : ray point (phase.getD defaultPhase) (-1) with
    | nil => rw [hcase] at hn; simp at hn
    | cons a as =>
      rw [hcase] at hn
      simp at hn
      exact ⟨as, by rw [hn]⟩
  obtain ⟨ptl, hptl⟩ : ∃ ptl, ray point (phase.getD defaultPhase) 1 = point :: ptl := by
    cases hcase : ray point (phase.getD defaultPhase) 1 with
    | nil => rw [hcase] at hp; simp at hp
    | cons a as =>
      rw [hcase] at hp
      simp at hp
      exact ⟨as, by rw [hp]⟩
  obtain ⟨rest, hrest⟩ : ∃ rest, ptl = q :: rest := by
    rw [hptl] at hq
    cases hcase : ptl with
    | nil => rw [hcase] at hq; simp at hq
    | cons b bs =>
      rw [hcase] at hq
      simp at hq
      exact ⟨bs, by rw [hq]⟩
  have htraj : (calculate ray defaultPhase point phase).trajectory
      = (ray point (phase.getD defaultPhase) (-1)).reverse
        ++ (ray point (phase.getD defaultPhase) 1).drop 1 := rfl
  have e1 : (calculate ray defaultPhase point phase).trajectory.get?
      ((ray point (phase.getD defaultPhase) (-1)).length - 1) = some point := by
    rw [htraj, htl, hptl, hrest]
    simpa using get_rev_append_last tl (q :: rest) point
  have e2 : (calculate ray defaultPhase point phase).trajectory.get?
      (ray point (phase.getD defaultPhase) (-1)).length = some q := by
    rw [htraj, htl, hptl, hrest]
    simpa using get_rev_append_next tl rest point q
  refine ⟨htraj, e1, e2, ?_⟩
  rw [e1, e2]
  intro hcontra
  exact hne (Option.some.inj hcontra).symm

/-- Concrete instantiation of `calculate_seam` for the ray function sending
a start point `p` and sign `s` to `[p, p + s]`. -/
theorem calculate_seam_witness :
    ((fun (p : ℂ) (_ : ℂ) (s : ℤ) => [p, p + (s : ℂ)]) 0
        ((none : Option ℂ).getD 0) (-1)).head? = some 0 ∧
      ((fun (p : ℂ) (_ : ℂ) (s : ℤ) => [p, p + (s : ℂ)]) 0
        ((none : Option ℂ).getD 0) 1).head? = some 0 ∧
      ((fun (p : ℂ) (_ : ℂ) (s : ℤ) => [p, p + (s : ℂ)]) 0
        ((none : Option ℂ).getD 0) 1).get? 1 = some 1 ∧
      ((1 : ℂ) ≠ 0) ∧
      (calculate (fun (p : ℂ) (_ : ℂ) (s : ℤ) => [p, p + (s : ℂ)]) 0 0 none).trajectory
        = ((fun (p : ℂ) (_ : ℂ) (s : ℤ) => [p, p + (s : ℂ)]) 0
            ((none : Option ℂ).getD 0) (-1)).reverse
          ++ ((fun (p : ℂ) (_ : ℂ) (s : ℤ) => [p, p + (s : ℂ)]) 0
            ((none : Option ℂ).getD 0) 1).drop 1 :=
  ⟨by simp, by norm_num, by norm_num,
    by norm_num,
    (calculate_seam (fun (p : ℂ) (_ : ℂ) (s : ℤ) => [p, p + (s : ℂ)]) 0 0 1 none
      (by simp) (by norm_num) (by norm_num) (by norm_num)).1⟩

/-- C9: `calculate(point)` returns a trajectory whose basepoint is `point`
and whose point list is nonempty, given that the negative ray (a `solve_ivp`
output) contains at least its initial sample. -/
theorem calculate_basepoint_length (ray : ℂ → ℂ → ℤ → List ℂ) (defaultPhase point : ℂ)
    (phase : Option ℂ) (h : ray point (phase.getD defaultPhase) (-1) ≠ []) :
    (calculate ray defaultPhase point phase).basepoint = some point ∧
      1 ≤ (calculate ray defaultPhase point phase).trajectory.length := by
  refine ⟨rfl, ?_⟩
  have hpos : 0 < (ray point (phase.getD defaultPhase) (-1)).length :=
    List.length_pos.mpr h
  show 1 ≤ (calculateMerge (ray point (phase.getD defaultPhase) (-1))
      (ray point (phase.getD defaultPhase) 1)).length
  unfold calculateMerge
  rw [List.length_append, List.length_reverse]
  omega

/-- Concrete instantiation of `calculate_basepoint_length` for a one-sample
ray. -/
theorem calculate_basepoint_length_witness :
    (fun (p : ℂ) (_ : ℂ) (_ : ℤ) => [p]) 0 ((none : Option ℂ).getD 0) (-1) ≠ [] ∧
      ((calculate (fun (p : ℂ) (_ : ℂ) (_ : ℤ) => [p]) 0 0 none).basepoint = some 0 ∧
        1 ≤ (calculate (fun (p : ℂ) (_ : ℂ) (_ : ℤ) => [p]) 0 0 none).trajectory.length) :=
  ⟨by simp, calculate_basepoint_length (fun (p : ℂ) (_ : ℂ) (_ : ℤ) => [p]) 0 0 none (by simp)⟩

/-- C8: the batch operation associates every job key present in `args` with
exactly the trajectory `_calculate` computes for that key: the pair is in
the result, and any pair carrying that key carries that trajectory. -/
theorem parallel_calculate_assoc (ray : ℂ → ℂ → ℤ → List ℂ) (defaultPhase : ℂ)
    (args : List (ℂ × ℂ)) (k : ℂ × ℂ) (hk : k ∈ args) :
    (k, calcJob ray defaultPhase k) ∈ parallel_calculate ray defaultPhase args ∧
      ∀ v, (k, v) ∈ parallel_calculate ray defaultPhase args →
        v = calcJob ray defaultPhase k := by
  unfold parallel_calculate
  constructor
  · exact List.mem_map.mpr ⟨k, hk, rfl⟩
  · intro v hv
    rcases List.mem_map.mp hv with ⟨a, _, heq⟩
    have h1 : a = k := congrArg Prod.fst heq
    have h2 : calcJob ray defaultPhase a = v := congrArg Prod.snd heq
    rw [← h2, h1]

/-- Concrete instantiation of `parallel_calculate_assoc` on a one-job
batch. -/
theorem parallel_calculate_assoc_witness :
    ((0 : ℂ), (0 : ℂ)) ∈ [((0 : ℂ), (0 : ℂ))] ∧
      (((0 : ℂ), (0 : ℂ)),
          calcJob (fun (p : ℂ) (_ : ℂ) (_ : ℤ) => [p]) 0 ((0 : ℂ), (0 : ℂ)))
        ∈ parallel_calculate (fun (p : ℂ) (_ : ℂ) (_ : ℤ) => [p]) 0
            [((0 : ℂ), (0 : ℂ))] :=
  ⟨by simp,
    (parallel_calculate_assoc (fun (p : ℂ) (_ : ℂ) (_ : ℤ) => [p]) 0
      [((0 : ℂ), (0 : ℂ))] ((0 : ℂ), (0 : ℂ)) (by simp)).1⟩

/-- The imaginary part of a complex quotient in planar cross-product form. -/
theorem div_im_eq (x d : ℂ) : (x / d).im = cross2 d x / Complex.normSq d := by
  rw [Complex.div_im, div_sub_div_same]
  unfold cross2
  congr 1
  ring

/-- The real part of a complex quotient in dot-product form. -/
theorem div_re_eq (x d : ℂ) : (x / d).re = (x.re * d.re + x.im * d.im) / Complex.normSq d := by
  rw [Complex.div_re, div_add_div_same]

/-- Cancelling a common nonzero denominator in a quotient of quotients
(valid for every numerator, including a zero denominator `b`). -/
theorem div_div_div_same (a b c : ℝ) (hc : c ≠ 0) : a / c / (b / c) = a / b := by
  rcases eq_or_ne b 0 with hb | hb
  · simp [hb]
  · field_simp

/-- Dividing by a positive number preserves nonpositivity in both
directions. -/
theorem div_nonpos_iff_pos (x p : ℝ) (hp : 0 < p) : x / p ≤ 0 ↔ x ≤ 0 := by
  constructor
  · intro h
    have hxp : x / p * p = x := div_mul_cancel₀ x (ne_of_gt hp)
    nlinarith
  · intro h
    have hxp : x / p * p = x := div_mul_cancel₀ x (ne_of_gt hp)
    nlinarith

/-- The crossing-parameter window `-c/d ∈ [0, 1]` in division-free form
(with the Lean convention `x / 0 = 0`, under which the window is trivially
satisfied when `d = 0`, matching both product conditions degenerating to
equalities with zero). -/
theorem tstar_iff (c d : ℝ) :
    (0 ≤ -c / d ∧ -c / d ≤ 1) ↔ (c * d ≤ 0 ∧ 0 ≤ (c + d) * d) := by
  rcases lt_trichotomy d 0 with hd | hd | hd
  · rw [le_div_iff_of_neg hd, div_le_iff_of_neg hd]
    constructor
    · rintro ⟨h1, h2⟩
      constructor <;> nlinarith
    · rintro ⟨h1, h2⟩
      constructor <;> nlinarith
  · subst hd
    simp
  · rw [le_div_iff hd, div_le_iff hd]
    constructor
    · rintro ⟨h1, h2⟩
      constructor <;> nlinarith
    · rintro ⟨h1, h2⟩
      constructor <;> nlinarith

/-- Real-arithmetic core of the `segCross` characterization: the three
division-form conditions of the code, with the components already written
over a common positive denominator `N`, are equivalent to three
division-free sign conditions on the cross products. -/
theorem segCross_char_core (A B C N d1 d2 : ℝ) (hN : 0 < N)
    (hkey : A * d2 - B * d1 = -(C * N)) :
    (B / N * (A / N) ≤ 0 ∧
      0 ≤ (A / N * (d2 / N) - B / N * (d1 / N)) / (A / N - B / N) ∧
      (A / N * (d2 / N) - B / N * (d1 / N)) / (A / N - B / N) ≤ 1)
    ↔ (A * B ≤ 0 ∧ C * (A - B) ≤ 0 ∧ 0 ≤ (C + (A - B)) * (A - B)) := by
  have hN0 : N ≠ 0 := ne_of_gt hN
  have h1 : B / N * (A / N) = A * B / (N * N) := by ring
  have h2 : A / N * (d2 / N) - B / N * (d1 / N) = (A * d2 - B * d1) / (N * N) := by ring
  have h3 : A / N - B / N = (A - B) / N := by ring
  rw [h1, h2, h3, hkey]
  have h4 : -(C * N) / (N * N) = -C / N := by
    rw [show -(C * N) = -C * N by ring, mul_div_mul_right _ _ hN0]
  rw [h4, div_div_div_same (-C) (A - B) N hN0,
    div_nonpos_iff_pos (A * B) (N * N) (mul_pos hN hN)]
  have h6 := tstar_iff C (A - B)
  constructor
  · rintro ⟨p1, p2, p3⟩
    exact ⟨p1, (h6.mp ⟨p2, p3⟩).1, (h6.mp ⟨p2, p3⟩).2⟩
  · rintro ⟨p1, p2, p3⟩
    exact ⟨p1, (h6.mpr ⟨p2, p3⟩).1, (h6.mpr ⟨p2, p3⟩).2⟩

/-- Characterization of the code's per-pair intersection test for a
nondegenerate first segment, in terms of signed areas: with
`A = cross2 (z2-z1) (w1-z1)`, `B = cross2 (z2-z1) (w2-z1)` and
`C = cross2 (w1-z1) (w2-z1)`, the test holds iff `A·B ≤ 0`,
`C·(A-B) ≤ 0` and `(C+(A-B))·(A-B) ≥ 0`. -/
theorem segCross_char (z1 z2 w1 w2 : ℂ) (hd : z2 - z1 ≠ 0) :
    segCross z1 z2 w1 w2 ↔
      (cross2 (z2 - z1) (w1 - z1) * cross2 (z2 - z1) (w2 - z1) ≤ 0 ∧
        cross2 (w1 - z1) (w2 - z1)
            * (cross2 (z2 - z1) (w1 - z1) - cross2 (z2 - z1) (w2 - z1)) ≤ 0 ∧
        0 ≤ (cross2 (w1 - z1) (w2 - z1)
              + (cross2 (z2 - z1) (w1 - z1) - cross2 (z2 - z1) (w2 - z1)))
            * (cross2 (z2 - z1) (w1 - z1) - cross2 (z2 - z1) (w2 - z1))) := by
  have hN : 0 < Complex.normSq (z2 - z1) := Complex.normSq_pos.mpr hd
  have hkey : cross2 (z2 - z1) (w1 - z1)
        * ((w2 - z1).re * (z2 - z1).re + (w2 - z1).im * (z2 - z1).im)
      - cross2 (z2 - z1) (w2 - z1)
        * ((w1 - z1).re * (z2 - z1).re + (w1 - z1).im * (z2 - z1).im)
      = -(cross2 (w1 - z1) (w2 - z1) * Complex.normSq (z2 - z1)) := by
    simp only [cross2, Complex.normSq_apply, Complex.sub_re, Complex.sub_im]
    ring
  have hcore := segCross_char_core
    (cross2 (z2 - z1) (w1 - z1)) (cross2 (z2 - z1) (w2 - z1))
    (cross2 (w1 - z1) (w2 - z1)) (Complex.normSq (z2 - z1))
    ((w1 - z1).re * (z2 - z1).re + (w1 - z1).im * (z2 - z1).im)
    ((w2 - z1).re * (z2 - z1).re + (w2 - z1).im * (z2 - z1).im) hN hkey
  unfold segCross
  rw [div_im_eq (w2 - z1) (z2 - z1), div_im_eq (w1 - z1) (z2 - z1),
    div_re_eq (w2 - z1) (z2 - z1), div_re_eq (w1 - z1) (z2 - z1)]
  exact hcore

/-- Exchanging the roles of the two segments transforms the signed areas:
`cross2 (w2-w1) (z1-w1)` is the area `C` of the original frame. -/
theorem cross2_swap1 (z1 z2 w1 w2 : ℂ) :
    cross2 (w2 - w1) (z1 - w1) = cross2 (w1 - z1) (w2 - z1) := by
  simp only [cross2, Complex.sub_re, Complex.sub_im]
  ring

/-- Exchanging the roles of the two segments: `cross2 (w2-w1) (z2-w1)` is
`A - B + C` of the original frame. -/
theorem cross2_swap2 (z1 z2 w1 w2 : ℂ) :
    cross2 (w2 - w1) (z2 - w1)
      = cross2 (z2 - z1) (w1 - z1) - cross2 (z2 - z1) (w2 - z1)
        + cross2 (w1 - z1) (w2 - z1) := by
  simp only [cross2, Complex.sub_re, Complex.sub_im]
  ring

/-- Exchanging the roles of the two segments: `cross2 (z1-w1) (z2-w1)` is
`A` of the original frame. -/
theorem cross2_swap3 (z1 z2 w1 w2 : ℂ) :
    cross2 (z1 - w1) (z2 - w1) = cross2 (z2 - z1) (w1 - z1) := by
  simp only [cross2, Complex.sub_re, Complex.sub_im]
  ring

/-- Three-point identity for planar cross products (real components). -/
theorem cross2_triple (p q r : ℂ) :
    p.re * cross2 q r - q.re * cross2 p r + r.re * cross2 p q = 0 := by
  simp only [cross2]
  ring

/-- Three-point identity for planar cross products (imaginary components). -/
theorem cross2_triple_im (p q r : ℂ) :
    p.im * cross2 q r - q.im * cross2 p r + r.im * cross2 p q = 0 := by
  simp only [cross2]
  ring

/-- Two vectors both parallel to a nonzero vector are parallel to each
other. -/
theorem cross2_zero_trans (d u v : ℂ) (hd : d ≠ 0) (hA : cross2 d u = 0)
    (hB : cross2 d v = 0) : cross2 u v = 0 := by
  have h1 := cross2_triple d u v
  have h2 := cross2_triple_im d u v
  rw [hA, hB] at h1 h2
  simp at h1 h2
  have hdc : d.re ≠ 0 ∨ d.im ≠ 0 := by
    by_contra hcon
    push_neg at hcon
    exact hd (Complex.ext hcon.1 hcon.2)
  rcases hdc with h | h
  · rcases h1 with h' | h'
    · exact absurd h' h
    · exact h'
  · rcases h2 with h' | h'
    · exact absurd h' h
    · exact h'

/-- If `u` and `v` are parallel, distinct, and have equal areas against `d`,
then both areas vanish. -/
theorem cross2_zero_rev (d u v : ℂ) (huv : u ≠ v) (hC : cross2 u v = 0)
    (hAB : cross2 d u = cross2 d v) : cross2 d u = 0 := by
  have hw : u - v ≠ 0 := sub_ne_zero.mpr huv
  have h1 : cross2 (u - v) d = 0 := by
    simp only [cross2, Complex.sub_re, Complex.sub_im] at hAB ⊢
    linear_combination -hAB
  have h2 : cross2 (u - v) u = 0 := by
    simp only [cross2, Complex.sub_re, Complex.sub_im] at hC ⊢
    linear_combination hC
  exact cross2_zero_trans (u - v) d u hw h1 h2

/-- Real-arithmetic equivalence underlying the symmetry of the segment
test, modulo the geometric bridge used in the parallel (`A = B`) case. -/
theorem symm_arith (A B C : ℝ) (hb : A = B → (A = 0 ↔ C = 0)) :
    (A * B ≤ 0 ∧ C * (A - B) ≤ 0 ∧ 0 ≤ (C + (A - B)) * (A - B)) ↔
      (C * (A - B + C) ≤ 0 ∧ A * (C - (A - B + C)) ≤ 0 ∧
        0 ≤ (A + (C - (A - B + C))) * (C - (A - B + C))) := by
  rcases eq_or_ne A B with hAB | hAB
  · have hiff := hb hAB
    subst hAB
    simp only [sub_self, mul_zero, zero_mul, add_zero, zero_add, zero_sub, le_refl,
      and_true, true_and, sub_zero]
    have hms : ∀ x : ℝ, x * x ≤ 0 ↔ x = 0 := by
      intro x
      constructor
      · intro h
        exact mul_self_eq_zero.mp (le_antisymm h (mul_self_nonneg x))
      · intro h
        simp [h]
    rw [hms, hms]
    exact hiff
  · have hΔ : A - B ≠ 0 := sub_ne_zero.mpr hAB
    have hΔ2 : 0 < (A - B) * (A - B) := mul_self_pos.mpr hΔ
    constructor
    · rintro ⟨p1, p2, p3⟩
      refine ⟨?_, ?_, ?_⟩
      · nlinarith [sq_nonneg (C + (A - B)), sq_nonneg C]
      · nlinarith [sq_nonneg A]
      · nlinarith [sq_nonneg B]
    · rintro ⟨q1, q2, q3⟩
      refine ⟨?_, ?_, ?_⟩
      · nlinarith [sq_nonneg A, sq_nonneg B]
      · nlinarith [sq_nonneg C]
      · nlinarith [sq_nonneg (C + (A - B))]

/-- Symmetry of the per-pair intersection test for nondegenerate
segments. -/
theorem segCross_symm (z1 z2 w1 w2 : ℂ) (h1 : z1 ≠ z2) (h2 : w1 ≠ w2) :
    segCross z1 z2 w1 w2 ↔ segCross w1 w2 z1 z2 := by
  have hd : z2 - z1 ≠ 0 := sub_ne_zero.mpr (Ne.symm h1)
  have hw : w2 - w1 ≠ 0 := sub_ne_zero.mpr (Ne.symm h2)
  rw [segCross_char z1 z2 w1 w2 hd, segCross_char w1 w2 z1 z2 hw,
    cross2_swap1 z1 z2 w1 w2, cross2_swap2 z1 z2 w1 w2, cross2_swap3 z1 z2 w1 w2]
  have hbridge : cross2 (z2 - z1) (w1 - z1) = cross2 (z2 - z1) (w2 - z1) →
      (cross2 (z2 - z1) (w1 - z1) = 0 ↔ cross2 (w1 - z1) (w2 - z1) = 0) := by
    intro hAB
    constructor
    · intro hA
      exact cross2_zero_trans (z2 - z1) (w1 - z1) (w2 - z1) hd hA (hAB ▸ hA)
    · intro hC
      have huv : w1 - z1 ≠ w2 - z1 := by
        intro he
        exact h2 (sub_left_inj.mp he)
      exact cross2_zero_rev (z2 - z1) (w1 - z1) (w2 - z1) huv hC hAB
  have harith := symm_arith (cross2 (z2 - z1) (w1 - z1)) (cross2 (z2 - z1) (w2 - z1))
    (cross2 (w1 - z1) (w2 - z1)) hbridge
  constructor
  · intro h
    have := harith.mp ⟨h.1, h.2.1, h.2.2⟩
    exact ⟨this.1, this.2.1, this.2.2⟩
  · intro h
    have := harith.mpr ⟨h.1, h.2.1, h.2.2⟩
    exact ⟨this.1, this.2.1, this.2.2⟩

/-- Adjacent entries of a list whose consecutive points are pairwise
distinct are distinct. -/
theorem adjacent_ne_of_chain (l : List ℂ) (hl : List.Chain' (fun p q => p ≠ q) l)
    (i : ℕ) (x y : ℂ) (hx : l.get? i = some x) (hy : l.get? (i + 1) = some y) :
    x ≠ y := by
  rcases List.get?_eq_some.mp hx with ⟨hi, hxval⟩
  rcases List.get?_eq_some.mp hy with ⟨hj, hyval⟩
  subst hxval hyval
  exact List.chain'_iff_get.mp hl i (by omega)

/-- C7: `intersects` is symmetric for every pair of trajectories whose
consecutive points are pairwise distinct (no zero-length segments). -/
theorem intersects_symm (a b : List ℂ) (ha : List.Chain' (fun p q => p ≠ q) a)
    (hb : List.Chain' (fun p q => p ≠ q) b) :
    intersectsTraj a b ↔ intersectsTraj b a := by
  constructor
  · rintro ⟨i, j, p1, p2, q1, q2, e1, e2, e3, e4, hc⟩
    exact ⟨j, i, q1, q2, p1, p2, e3, e4, e1, e2,
      (segCross_symm p1 p2 q1 q2 (adjacent_ne_of_chain a ha i p1 p2 e1 e2)
        (adjacent_ne_of_chain b hb j q1 q2 e3 e4)).mp hc⟩
  · rintro ⟨j, i, q1, q2, p1, p2, e3, e4, e1, e2, hc⟩
    exact ⟨i, j, p1, p2, q1, q2, e1, e2, e3, e4,
      (segCross_symm p1 p2 q1 q2 (adjacent_ne_of_chain a ha i p1 p2 e1 e2)
        (adjacent_ne_of_chain b hb j q1 q2 e3 e4)).mpr hc⟩

/-- Concrete instantiation of `intersects_symm` on a horizontal and a
shifted segment. -/
theorem intersects_symm_witness :
    List.Chain' (fun p q => p ≠ q) [(0 : ℂ), 1] ∧
      List.Chain' (fun p q => p ≠ q) [Complex.I, 1 + Complex.I] ∧
      (intersectsTraj [(0 : ℂ), 1] [Complex.I, 1 + Complex.I] ↔
        intersectsTraj [Complex.I, 1 + Complex.I] [(0 : ℂ), 1]) :=
  ⟨by simp, by simp [Complex.ext_iff],
    intersects_symm [(0 : ℂ), 1] [Complex.I, 1 + Complex.I]
      (by simp) (by simp [Complex.ext_iff])⟩

/-- C10: with `simplify = true`, only the receiver trajectory is replaced by
its simplified copy before the segment test; the other trajectory always
participates with its full point sequence (and with `simplify = false`
neither is simplified). -/
theorem intersects_simplify_receiver_only (simp0 : List ℂ → List ℂ) (a b : List ℂ) :
    (intersectsMethod simp0 a b true ↔ intersectsTraj (simp0 a) b) ∧
      (intersectsMethod simp0 a b false ↔ intersectsTraj a b) := by
  unfold intersectsMethod
  constructor
  · simp
  · simp

end QuadDiff
